import Mathlib

/-!
Verification of the `gitmopy` repository: a shallow embedding of its
commit-message formatting, commit wizard result construction, remote sync
orchestration and configuration persistence, with theorems settling the
specification claims.

The embedding follows the Python sources `gitmopy/utils.py`,
`gitmopy/prompt.py`, `gitmopy/git.py` and `gitmopy/cli.py`.  Python strings
are modelled as Lean `String`, Python dicts as ordered association lists
(insertion order preserved, unique keys), and exceptions as explicit sum
types.
-/

namespace Gitmopy

/-! ## Python string primitives -/

/-- Characters treated as whitespace by Python `str.strip()`. -/
def isPySpace (c : Char) : Bool :=
  c = ' ' || c = '\t' || c = '\n' || c = '\r' || c = '\x0b' || c = '\x0c'

/-- Python `str.strip()`: remove leading and trailing whitespace. -/
def pyStrip (s : String) : String :=
  ⟨((s.data.dropWhile isPySpace).reverse.dropWhile isPySpace).reverse⟩

/-- Python `str.capitalize()`: first character uppercased, every remaining
character lowercased (ASCII model). -/
def pyCapitalize (s : String) : String :=
  match s.data with
  | [] => ""
  | c :: rest => ⟨Char.toUpper c :: rest.map Char.toLower⟩

/-- Python `str.upper()` (ASCII model). -/
def pyUpper (s : String) : String :=
  ⟨s.data.map Char.toUpper⟩

/-- Python `str.lower()` (ASCII model). -/
def pyLower (s : String) : String :=
  ⟨s.data.map Char.toLower⟩

/-- Python `str.startswith` (char-level model of `String.startsWith`). -/
def pyStartsWith (s p : String) : Bool :=
  p.data.isPrefixOf s.data

/-- Python `str.removeprefix`: drop `p` from the front of `s` when `s` starts
with `p`, otherwise return `s` unchanged. -/
def pyRemoveHead (s p : String) : String :=
  if pyStartsWith s p then ⟨s.data.drop p.length⟩ else s

/-- `utils.safe_capitalize`: capitalize a non-empty string but keep all-caps
words; `if not s: return s; if len(s) == 1: return s.upper();
return s[0].upper() + s[1:]`. -/
def safe_capitalize (s : String) : String :=
  match s.data with
  | [] => s
  | [c] => ⟨[Char.toUpper c]⟩
  | c :: rest => ⟨Char.toUpper c :: rest⟩

/-! ## Python dict model

Python dicts preserve insertion order and keep keys unique.  We model them
as association lists whose keys are unique by construction; `d[k] = v`
overwrites the existing entry in place or appends a fresh one at the end. -/

/-- Python `d[k] = v` on a dict with unique keys. -/
def dictInsert {β : Type} : List (String × β) → String → β → List (String × β)
  | [], k, v => [(k, v)]
  | kv :: rest, k, v =>
      if kv.1 = k then (k, v) :: rest else kv :: dictInsert rest k v

/-- Build a Python dict from a list of key-value pairs (dict comprehension),
later pairs overwriting earlier ones. -/
def dictOfList {β : Type} (l : List (String × β)) : List (String × β) :=
  l.foldl (fun d kv => dictInsert d kv.1 kv.2) []

/-- Python `d.update(e)`: assign every entry of `e` into `d` in order. -/
def dictUpdate {β : Type} (d e : List (String × β)) : List (String × β) :=
  e.foldl (fun d kv => dictInsert d kv.1 kv.2) d

/-- The keys of a dict, in order. -/
def dictKeys {β : Type} (d : List (String × β)) : List String :=
  d.map Prod.fst

/-- Concatenation of a list of strings. -/
def joinStrs : List String → String
  | [] => ""
  | s :: rest => s ++ joinStrs rest

/-- Lexicographic order on char lists by code point (the order Python uses
for string comparison). -/
def charListLe : List Char → List Char → Bool
  | [], _ => true
  | _ :: _, [] => false
  | a :: as, b :: bs =>
      if a.toNat < b.toNat then true
      else if a.toNat = b.toNat then charListLe as bs else false

/-- Python string `<=` (code-point lexicographic). -/
def strLe (a b : String) : Bool :=
  charListLe a.data b.data

/-! ## Commit details and message formatting (`utils.py`) -/

/-- The commit-details record produced by the commit wizard
(the dict returned by `commit_prompt`). -/
structure CommitDict where
  emoji : String
  scope : String
  title : String
  message : String
  deriving Repr, DecidableEq

/-- `utils.message_from_commit_dict`: build the final commit message.
`message = f"{emoji} "`; if `scope` is truthy append `f"({scope}): "`;
append `f"{title}\n\n{message}"`; return `message.strip()`. -/
def message_from_commit_dict (d : CommitDict) : String :=
  let message := d.emoji ++ " "
  let message := if d.scope ≠ "" then message ++ "(" ++ d.scope ++ "): " else message
  let message := message ++ d.title ++ "\n\n" ++ d.message
  pyStrip message

/-- `utils.COLORS`: Rich colour names for prints. -/
def COLORS : List (String × String) :=
  [("r", "red"), ("g", "green3"), ("b", "dodger_blue3"),
   ("y", "yellow3"), ("o", "orange3"), ("p", "plum3")]

/-- `utils.col`: wrap `txt` in Rich colour markup,
`f"[{COLORS[color]}]{txt}[/]"`, or the bold variant. -/
def col (txt color : String) (bold : Bool) : String :=
  let c := (List.lookup color COLORS).getD ""
  if bold then "[" ++ c ++ " bold]" ++ txt ++ "[/]"
  else "[" ++ c ++ "]" ++ txt ++ "[/]"

/-- The recognized configuration keys (the key set of `utils.DEFAULT_CONFIG`,
from `DEFAULT_CHOICES`). -/
def recognizedConfigKeys : List String :=
  ["skip_scope", "skip_message", "capitalize_title", "enable_history"]

/-! ## The commit wizard (`prompt.commit_prompt`) -/

/-- The configuration flags read by `commit_prompt`. -/
structure Config where
  skip_scope : Bool
  skip_message : Bool
  capitalize_title : Bool
  deriving Repr, DecidableEq

/-- The raw texts the user submits at each prompt of the wizard. -/
structure PromptInputs where
  emoji : String
  scope : String
  title : String
  message : String
  deriving Repr, DecidableEq

/-- The validator of the title prompt: `validate=lambda t: len(t) > 0` (checked on
the raw submitted text, before any stripping). -/
def titleAccepted (t : String) : Bool :=
  t.length > 0

/-- `prompt.commit_prompt`: collect the four fields.  Every submitted text is
`.strip()`-ped; `scope`/`message` are `""` when skipped by configuration; the
title is accepted only when the raw text has positive length, and is then
`title.capitalize()`-d when `capitalize_title` is set.  Returns `none` when
the title prompt would not accept the submitted text. -/
def commit_prompt (config : Config) (inp : PromptInputs) : Option CommitDict :=
  if titleAccepted inp.title then
    let title := pyStrip inp.title
    some
      { emoji := pyStrip inp.emoji
        scope := if config.skip_scope then "" else pyStrip inp.scope
        title := if config.capitalize_title then pyCapitalize title else title
        message := if config.skip_message then "" else pyStrip inp.message }
  else
    none

/-! ## History completion (`prompt.GMPCompleter`) -/

/-- A persisted history entry: commit details plus the epoch-seconds
timestamp attached by `history.save_to_history`. -/
structure HistEntry where
  emoji : String
  scope : String
  title : String
  message : String
  timestamp : Nat
  deriving Repr, DecidableEq

/-- The text field a completer is attached to (the `key` argument of
`GMPCompleter.__init__`). -/
inductive HistField where
  | emoji | scope | title | message
  deriving Repr, DecidableEq

/-- `c[key]` on a history entry. -/
def HistEntry.get (c : HistEntry) : HistField → String
  | .emoji => c.emoji
  | .scope => c.scope
  | .title => c.title
  | .message => c.message

/-- One iteration of the loop in `GMPCompleter.__init__`: record the first
timestamp for an unseen value, otherwise keep the max of the timestamps. -/
def candidatesStep (key : HistField) (d : List (String × Nat)) (c : HistEntry) :
    List (String × Nat) :=
  match List.lookup (c.get key) d with
  | none => dictInsert d (c.get key) c.timestamp
  | some t => dictInsert d (c.get key) (max t c.timestamp)

/-- `GMPCompleter.__init__`: the `candidates` dict mapping each distinct
historical value of the field to the most recent timestamp it was used at. -/
def GMPCompleter.candidates (key : HistField) (hist : List HistEntry) :
    List (String × Nat) :=
  hist.foldl (candidatesStep key) []

/-- Running maximum of the timestamps at which value `v` was used for field
`key`, started from `t`. -/
def lastUseFrom (key : HistField) (v : String) (t : Nat)
    (hist : List HistEntry) : Nat :=
  hist.foldl (fun acc c => if c.get key = v then max acc c.timestamp else acc) t

/-- The most recent timestamp at which value `v` was used for field `key`
in the history (0 if never used). -/
def lastUse (key : HistField) (hist : List HistEntry) (v : String) : Nat :=
  lastUseFrom key v 0 hist

/-- The per-value effect of one `GMPCompleter.__init__` iteration on the
timestamp recorded for value `v`. -/
def candSpecStep (key : HistField) (v : String) (o : Option Nat)
    (c : HistEntry) : Option Nat :=
  if c.get key = v then
    match o with
    | none => some c.timestamp
    | some t => some (max t c.timestamp)
  else o

/-- The filter applied by `GMPCompleter.get_completions`:
`k.lower().startswith(document.text.lower())`. -/
def matchesInput (v text : String) : Bool :=
  pyStartsWith (pyLower v) (pyLower text)

/-- The `matched` list of `GMPCompleter.get_completions`: candidates whose
value starts with the typed text (case-insensitive), sorted by timestamp
descending (Python `sorted(..., key=lambda x: x[1], reverse=True)`, a stable
sort, modelled by stable `mergeSort`). -/
def matchedSorted (key : HistField) (hist : List HistEntry) (text : String) :
    List (String × Nat) :=
  ((GMPCompleter.candidates key hist).filter
      (fun kv => matchesInput kv.1 text)).mergeSort
    (fun a b => decide (b.2 ≤ a.2))

/-- `GMPCompleter.get_completions`: yield the first 10 matched values
(`for m in matched[:10]: yield Completion(m[0], ...)`). -/
def get_completions (key : HistField) (hist : List HistEntry) (text : String) :
    List String :=
  ((matchedSorted key hist text).take 10).map Prod.fst

/-! ## Remote refs and upstream detection (`git.has_upstreams`) -/

/-- A repository reference as seen by `git.has_upstreams`: whether it is a
remote-tracking ref, the remote it belongs to, and its name
(for example `"origin/main"`). -/
structure Ref where
  is_remote : Bool
  remote_name : String
  name : String
  deriving Repr, DecidableEq

/-- The repository state `has_upstreams` reads: its list of refs.  The
`fetch_all` call only refreshes those refs and is side-effect-only here. -/
structure RepoRefs where
  refs : List Ref
  deriving Repr, DecidableEq

/-- Whether some remote-tracking ref of remote `n` matches `branch`
(`ref.is_remote() and ref.name.removeprefix(ref.remote_name + "/") ==
branch_name` with `ref.remote_name == n`). -/
def hasMatchingRef (repo : RepoRefs) (n branch : String) : Bool :=
  repo.refs.any fun ref =>
    ref.is_remote && ref.remote_name = n &&
      pyRemoveHead ref.name (ref.remote_name ++ "/") = branch

/-- `git.has_upstreams`: start from `{name: False for r in remotes}`, build
`remote_refs = {ref.remote_name: True for ref in repo.refs if ...}` and
`update` the first dict with the second. -/
def has_upstreams (repo : RepoRefs) (remotes : List String)
    (branch_name : String) : List (String × Bool) :=
  let remote_has_upstream := dictOfList (remotes.map fun n => (n, false))
  let remote_refs :=
    dictOfList
      ((repo.refs.filter fun ref =>
          ref.is_remote &&
            pyRemoveHead ref.name (ref.remote_name ++ "/") = branch_name).map
        fun ref => (ref.remote_name, true))
  dictUpdate remote_has_upstream remote_refs

/-! ## Remote divergence banner (`git.commits_behind` / `commits_ahead` /
`format_remotes_diff`) -/

/-- The value stored per remote by `commits_behind`: a commit count, or the
`_sentinels["no-branch"]` marker when `git` reports `fatal: bad revision`
because `{remote}/{branch}` does not exist. -/
inductive BehindVal where
  | count (n : Nat)
  | noBranch
  deriving Repr, DecidableEq

/-- The repository state the divergence formatter reads: remote names in the
natural order of the repository, the active branch name, and for each remote
whether `{remote}/{branch}` exists and the behind/ahead commit counts when it
does (`iter_commits` raises `GitCommandError: fatal: bad revision` when the
revision does not exist). -/
structure SyncRepo where
  remotes : List String
  branch : String
  branchExists : String → Bool
  behindOf : String → Nat
  aheadOf : String → Nat

/-- `git.commits_behind`: a dict mapping each remote name to the length of
`iter_commits` over the range from the local branch to the remote branch,
with the no-branch sentinel when the revision is bad. -/
def commits_behind (repo : SyncRepo) : List (String × BehindVal) :=
  dictOfList
    (repo.remotes.map fun n =>
      (n, if repo.branchExists n then .count (repo.behindOf n) else .noBranch))

/-- `git.commits_ahead`: like `commits_behind` in the other direction, but a
remote whose revision is bad gets no entry at all (the `except` clause is
`pass`). -/
def commits_ahead (repo : SyncRepo) : List (String × Nat) :=
  dictOfList
    ((repo.remotes.filter repo.branchExists).map fun n => (n, repo.aheadOf n))

/-- The per-remote text appended by the loop of `format_remotes_diff`: the
no-branch warning (followed by `continue`), else the behind line when the
count is nonzero followed by the ahead line when that count is nonzero.
Both dict reads are total at the call sites of the loop: every remote has a
`behind` entry, and every remote reaching the ahead read has an `ahead`
entry. -/
def remoteBlock (repo : SyncRepo) (behind : List (String × BehindVal))
    (ahead : List (String × Nat)) (n : String) : String :=
  match List.lookup n behind with
  | some .noBranch =>
      col ("remote " ++ n ++ " does not have a branch " ++ repo.branch ++ "\n")
        "y" false
  | some (.count bc) =>
      (if bc ≠ 0 then
        col ("  ↵ local is behind " ++ n ++ " by " ++ toString bc ++
          " commit(s)\n") "o" false
      else "") ++
      (match List.lookup n ahead with
       | some ac =>
          if ac ≠ 0 then
            col ("  ↳ local is ahead of " ++ n ++ " by " ++ toString ac ++
              " commit(s)\n") "p" false
          else ""
       | none => "")
  | none => ""

/-- The aggregate tested by `format_remotes_diff`:
`sum(non-sentinel behind values) + sum(ahead values)`. -/
def remotesDiffAggregate (behind : List (String × BehindVal))
    (ahead : List (String × Nat)) : Nat :=
  (behind.filterMap fun kv =>
      match kv.2 with
      | .count n => some n
      | .noBranch => none).sum
    + (ahead.map Prod.snd).sum

/-- `git.format_remotes_diff`: empty string when the aggregate divergence is
zero and no remote is missing the branch; otherwise a header line followed by
the per-remote blocks in the remote order of the repository. -/
def format_remotes_diff (repo : SyncRepo) : String :=
  let behind := commits_behind repo
  let ahead := commits_ahead repo
  let no_branch := (behind.filter fun kv => kv.2 = BehindVal.noBranch).map Prod.fst
  if remotesDiffAggregate behind ahead = 0 ∧ no_branch = [] then ""
  else
    repo.remotes.foldl (fun s n => s ++ remoteBlock repo behind ahead n)
      ("[u]" ++ col "Remotes diff:" "g" false ++ "[/u]\n")

/-! ## Push orchestration (`git.CatchRemoteException`, `cli.push_cli`) -/

/-- A Python exception as seen by the context manager: `GitCommandError`
carrying its `stderr` text, or any other raised exception. -/
inductive PyExc where
  | gitCommandError (stderr : String)
  | other (msg : String)
  deriving Repr, DecidableEq

/-- The state of `git.CatchRemoteException`: the remote name and the `error` and
`set_upsteam` flags initialized by `__init__`. -/
structure CatchRemoteState where
  remote : String
  error : Bool
  set_upsteam : Bool
  deriving Repr, DecidableEq

/-- `CatchRemoteException.__init__`: `error = False`, `set_upsteam = False`. -/
def CatchRemoteException.init (remote : String) : CatchRemoteState :=
  { remote := remote, error := false, set_upsteam := false }

/-- `CatchRemoteException.__exit__`: when the block raised `GitCommandError`,
set `error` and print the two error lines (the header naming the remote and
the `stderr` text in red); in every case return `True`, suppressing the
exception.  No other attribute is touched.  Result: the updated state, the
printed lines, and the returned suppression flag. -/
def CatchRemoteException.exit (st : CatchRemoteState) (exc : Option PyExc) :
    CatchRemoteState × List String × Bool :=
  match exc with
  | some (.gitCommandError stderr) =>
      ({ st with error := true },
        ["[bold red]Error:[/bold red] could not push to " ++ st.remote ++ ":",
         "[red]" ++ stderr ++ "[/red]"],
        true)
  | _ => (st, [], true)

/-- The outcome of one `repo.git.push(...)` call. -/
inductive PushOutcome where
  | ok
  | gitError (stderr : String)
  | otherExc (msg : String)
  deriving Repr, DecidableEq

/-- The environment the `cli.push_cli` loop runs in: the repository remotes
in natural order, the selected remote names, the `has_upstreams` result, the
answer each `set_upstream_prompt` would get, and the outcome of the push
attempt at each remote. -/
structure PushEnv where
  remotes : List String
  selected : List String
  hasUpstream : String → Bool
  upstreamAnswer : String → Bool
  pushResult : String → PushOutcome

/-- The exception (if any) raised inside the `with CatchRemoteException`
block for a given push outcome. -/
def excOfOutcome : PushOutcome → Option PyExc
  | .ok => none
  | .gitError e => some (.gitCommandError e)
  | .otherExc m => some (.other m)

/-- Whether the loop actually attempts a push to remote `r`: either the
remote already has an upstream, or the user accepts creating one (otherwise
the loop prints a skipping notice and `continue`s). -/
def pushAttempted (env : PushEnv) (r : String) : Bool :=
  env.hasUpstream r || env.upstreamAnswer r

/-- The success confirmation `done` printed for a remote
(with the upstream-created suffix in the `--set-upstream` branch). -/
def doneMessage (r : String) (setUpstream : Bool) : String :=
  col ("Pushed to remote " ++ r) "b" true ++
    if setUpstream then col " (upstream branch created)" "b" true else ""

/-- The lines printed for one selected remote of the `cli.push_cli` loop:
the skipping notice when the user declines to create a missing upstream;
otherwise the prints of the context manager followed by the `done` confirmation
when `cre.error` is false. -/
def pushRemoteLog (env : PushEnv) (r : String) : List String :=
  if pushAttempted env r then
    let setUpstream := !env.hasUpstream r
    let res := CatchRemoteException.exit (CatchRemoteException.init r)
      (excOfOutcome (env.pushResult r))
    res.2.1 ++ (if !res.1.error then [doneMessage r setUpstream] else [])
  else
    [col ("Skipping remote " ++ r ++ ".") "y" false]

/-- The per-remote loop of `cli.push_cli` (`for remote in repo.remotes: if
remote.name in selected_remotes: ...`): the concatenated printed lines. -/
def push_cli_log (env : PushEnv) : List String :=
  env.remotes.foldl
    (fun acc r => if r ∈ env.selected then acc ++ pushRemoteLog env r else acc)
    []

/-! ## Configuration persistence (`utils.save_config`) -/

/-- Insertion of an entry into a key-sorted association list. -/
def insertByKey (kv : String × Bool) :
    List (String × Bool) → List (String × Bool)
  | [] => [kv]
  | t :: rest =>
      if strLe kv.1 t.1 then kv :: t :: rest else t :: insertByKey kv rest

/-- Sort an association list by key (the `sort_keys=True` behaviour of
`yaml.safe_dump`). -/
def sortByKey (l : List (String × Bool)) : List (String × Bool) :=
  l.foldr insertByKey []

/-- `yaml.safe_dump` on a `str -> bool` map: keys sorted lexicographically
(`sort_keys=True`), one `key: value` line each. -/
def yamlSafeDump (config : List (String × Bool)) : String :=
  joinStrs
    ((sortByKey (dictOfList config)).map
      fun kv => kv.1 ++ ": " ++ (if kv.2 then "true" else "false") ++ "\n")

/-- The config-file state `save_config` mutates: `none` when
`${APP_PATH}/config.yaml` does not exist yet. -/
structure ConfigFile where
  content : Option String
  deriving Repr, DecidableEq

/-- `utils.save_config`: optionally announce file creation, then
unconditionally write `safe_dump(config)` to the config file and print the
update confirmation.  There is no validation step of any kind.  Result: the
new file state and the printed lines. -/
def save_config (config : List (String × Bool)) (fs : ConfigFile) :
    ConfigFile × List String :=
  let prints :=
    (if fs.content = none
     then ["[bold yellow] Creating config file [/bold yellow]"] else []) ++
    ["✅ Config updated"]
  ({ content := some (yamlSafeDump config) }, prints)

/-- Every remote is exactly in sync: its branch exists remotely and both the
behind and ahead counts are zero. -/
def syncedRepo (repo : SyncRepo) : Prop :=
  ∀ n ∈ repo.remotes,
    repo.branchExists n = true ∧ repo.behindOf n = 0 ∧ repo.aheadOf n = 0

/-- A remote diverges: its branch is absent remotely, or a behind/ahead
count is nonzero. -/
def divergentRemote (repo : SyncRepo) (n : String) : Prop :=
  repo.branchExists n = false ∨ repo.behindOf n ≠ 0 ∨ repo.aheadOf n ≠ 0

/-- A string occurs contiguously inside another. -/
def containsSubstring (s part : String) : Prop :=
  ∃ pre post, s = pre ++ part ++ post

/-- A run of lines occurs contiguously inside a log. -/
def containsLines (log lines : List String) : Prop :=
  ∃ pre post, log = pre ++ lines ++ post

end Gitmopy

namespace Gitmopy

/-! ## Dict lemmas -/

theorem lookup_cons_self {β : Type} (a : String) (v : β) (rest : List (String × β)) :
    List.lookup a ((a, v) :: rest) = some v := by
  simp [List.lookup_cons]

theorem lookup_cons_ne {β : Type} {a k : String} (h : ¬a = k) (v : β)
    (rest : List (String × β)) :
    List.lookup a ((k, v) :: rest) = List.lookup a rest := by
  simp [List.lookup_cons, beq_eq_false_iff_ne.mpr h]

theorem lookup_dictInsert {β : Type} (d : List (String × β)) (k : String) (v : β)
    (a : String) :
    List.lookup a (dictInsert d k v) =
      if a = k then some v else List.lookup a d := by
  induction d with
  | nil =>
    by_cases h : a = k
    · subst h; simp [dictInsert, lookup_cons_self]
    · simp [dictInsert, h, lookup_cons_ne h]
  | cons kv rest ih =>
    obtain ⟨k', v'⟩ := kv
    by_cases hk : k' = k
    · subst hk
      by_cases h : a = k'
      · subst h; simp [dictInsert, lookup_cons_self]
      · simp [dictInsert, h, lookup_cons_ne h]
    · by_cases h : a = k'
      · subst h
        have hak : ¬a = k := hk
        simp [dictInsert, hk, lookup_cons_self, hak]
      · simp [dictInsert, hk, lookup_cons_ne h, ih]

theorem lookup_isSome_iff {β : Type} (d : List (String × β)) (a : String) :
    (List.lookup a d).isSome = true ↔ a ∈ dictKeys d := by
  induction d with
  | nil => simp [dictKeys]
  | cons kv rest ih =>
    obtain ⟨k', v'⟩ := kv
    by_cases h : a = k'
    · subst h; simp [dictKeys, lookup_cons_self]
    · simp [dictKeys, lookup_cons_ne h, h, ih]

theorem lookup_eq_none_of_not_mem {β : Type} {d : List (String × β)} {a : String}
    (h : a ∉ dictKeys d) : List.lookup a d = none := by
  cases hl : List.lookup a d with
  | none => rfl
  | some v =>
    exact absurd ((lookup_isSome_iff d a).1 (by simp [hl])) h

theorem mem_dictKeys_dictInsert {β : Type} (d : List (String × β)) (k : String)
    (v : β) (a : String) :
    a ∈ dictKeys (dictInsert d k v) ↔ a = k ∨ a ∈ dictKeys d := by
  have h1 := lookup_dictInsert d k v a
  constructor
  · intro hm
    have := (lookup_isSome_iff _ a).2 hm
    by_cases h : a = k
    · exact Or.inl h
    · right
      rw [h1, if_neg h] at this
      exact (lookup_isSome_iff _ a).1 this
  · intro hm
    apply (lookup_isSome_iff _ a).1
    rw [h1]
    rcases hm with h | h
    · simp [h]
    · by_cases hak : a = k
      · simp [hak]
      · simpa [hak] using (lookup_isSome_iff d a).2 h

theorem nodup_dictKeys_dictInsert {β : Type} (d : List (String × β)) (k : String)
    (v : β) (hd : (dictKeys d).Nodup) : (dictKeys (dictInsert d k v)).Nodup := by
  induction d with
  | nil => simp [dictInsert, dictKeys]
  | cons kv rest ih =>
    obtain ⟨k', v'⟩ := kv
    simp only [dictKeys, List.map_cons, List.nodup_cons] at hd
    by_cases hk : k' = k
    · subst hk
      simpa [dictInsert, dictKeys, List.nodup_cons] using hd
    · have := ih hd.2
      simp only [dictInsert, hk, if_false, dictKeys, List.map_cons,
        List.nodup_cons]
      refine ⟨?_, this⟩
      intro hmem
      rcases (mem_dictKeys_dictInsert rest k v k').1 hmem with h | h
      · exact hk h
      · exact hd.1 h

theorem mem_iff_lookup_of_nodupKeys {β : Type} (d : List (String × β))
    (hd : (dictKeys d).Nodup) (a : String) (b : β) :
    (a, b) ∈ d ↔ List.lookup a d = some b := by
  induction d with
  | nil => simp
  | cons kv rest ih =>
    obtain ⟨k', v'⟩ := kv
    simp only [dictKeys, List.map_cons, List.nodup_cons] at hd
    by_cases h : a = k'
    · subst h
      rw [lookup_cons_self]
      constructor
      · intro hmem
        rcases List.mem_cons.mp hmem with heq | hmem'
        · injection heq with h1 h2
          rw [h2]
        · exact absurd (List.mem_map_of_mem Prod.fst hmem') hd.1
      · intro hv
        injection hv with h2
        rw [← h2]
        exact List.mem_cons_self _ _
    · rw [lookup_cons_ne h, ← ih hd.2]
      constructor
      · intro hmem
        rcases List.mem_cons.mp hmem with heq | hm
        · exact absurd (congrArg Prod.fst heq) h
        · exact hm
      · intro hm
        exact List.mem_cons_of_mem _ hm

theorem lookup_foldl_dictInsert {β : Type} (f : String → β) (l : List String)
    (d : List (String × β)) (a : String) :
    List.lookup a (l.foldl (fun d n => dictInsert d n (f n)) d) =
      if a ∈ l then some (f a) else List.lookup a d := by
  induction l generalizing d with
  | nil => simp
  | cons n l ih =>
    rw [List.foldl_cons, ih]
    by_cases hl : a ∈ l
    · simp [hl]
    · by_cases hn : a = n
      · subst hn
        simp [hl, lookup_dictInsert]
      · simp [hl, hn, lookup_dictInsert]

theorem lookup_dictOfList_map {β : Type} (f : String → β) (l : List String)
    (a : String) :
    List.lookup a (dictOfList (l.map fun n => (n, f n))) =
      if a ∈ l then some (f a) else none := by
  unfold dictOfList
  rw [List.foldl_map]
  simpa using lookup_foldl_dictInsert f l [] a

theorem nodup_dictKeys_foldl_dictInsert {β γ : Type} (keyf : γ → String)
    (valf : List (String × β) → γ → β) (l : List γ) (d : List (String × β))
    (hd : (dictKeys d).Nodup) :
    (dictKeys (l.foldl (fun d x => dictInsert d (keyf x) (valf d x)) d)).Nodup := by
  induction l generalizing d with
  | nil => exact hd
  | cons x l ih =>
    exact ih _ (nodup_dictKeys_dictInsert d (keyf x) (valf d x) hd)

theorem nodup_dictKeys_dictOfList {β : Type} (l : List (String × β)) :
    (dictKeys (dictOfList l)).Nodup := by
  unfold dictOfList
  exact nodup_dictKeys_foldl_dictInsert Prod.fst (fun _ kv => kv.2) l []
    (by simp [dictKeys])

theorem lookup_dictUpdate {β : Type} (d e : List (String × β))
    (he : (dictKeys e).Nodup) (a : String) :
    List.lookup a (dictUpdate d e) =
      (List.lookup a e).or (List.lookup a d) := by
  induction e generalizing d with
  | nil => simp [dictUpdate]
  | cons kv e ih =>
    obtain ⟨k', v'⟩ := kv
    simp only [dictKeys, List.map_cons, List.nodup_cons] at he
    have step : dictUpdate d ((k', v') :: e) = dictUpdate (dictInsert d k' v') e := by
      simp [dictUpdate]
    rw [step, ih _ he.2]
    by_cases h : a = k'
    · subst h
      have hnone : List.lookup a e = none := lookup_eq_none_of_not_mem he.1
      rw [lookup_cons_self, hnone, lookup_dictInsert]
      simp
    · rw [lookup_cons_ne h, lookup_dictInsert]
      simp [h]

theorem mem_dictKeys_iff_lookup_isSome {β : Type} (d : List (String × β))
    (a : String) : a ∈ dictKeys d ↔ (List.lookup a d).isSome = true :=
  (lookup_isSome_iff d a).symm

/-! ## `has_upstreams` lemmas (claim C7) -/

theorem mem_matching_refs_iff (repo : RepoRefs) (branch n : String) :
    (n ∈ (repo.refs.filter fun ref =>
        ref.is_remote &&
          pyRemoveHead ref.name (ref.remote_name ++ "/") = branch).map
      Ref.remote_name) ↔ hasMatchingRef repo n branch = true := by
  simp only [hasMatchingRef, List.mem_map, List.mem_filter, List.any_eq_true,
    Bool.and_eq_true, decide_eq_true_eq]
  constructor
  · rintro ⟨ref, ⟨hm, hr, hb⟩, hn⟩
    exact ⟨ref, hm, ⟨hr, hn⟩, hb⟩
  · rintro ⟨ref, hm, ⟨hr, hn⟩, hb⟩
    exact ⟨ref, ⟨hm, hr, hb⟩, hn⟩

theorem lookup_has_upstreams (repo : RepoRefs) (remotes : List String)
    (branch n : String) :
    List.lookup n (has_upstreams repo remotes branch) =
      ((if hasMatchingRef repo n branch then some true else none).or
        (if n ∈ remotes then some false else none)) := by
  unfold has_upstreams
  have hrr :
      ((repo.refs.filter fun ref =>
          ref.is_remote &&
            pyRemoveHead ref.name (ref.remote_name ++ "/") = branch).map
        fun ref => (ref.remote_name, true)) =
      ((repo.refs.filter fun ref =>
          ref.is_remote &&
            pyRemoveHead ref.name (ref.remote_name ++ "/") = branch).map
        Ref.remote_name).map fun m => (m, (true : Bool)) := by
    rw [List.map_map]
    rfl
  rw [lookup_dictUpdate _ _ (by rw [hrr]; exact nodup_dictKeys_dictOfList _) n,
    hrr, lookup_dictOfList_map, lookup_dictOfList_map]
  by_cases hm : hasMatchingRef repo n branch
  · rw [if_pos ((mem_matching_refs_iff repo branch n).2 hm), if_pos hm]
  · rw [if_neg (fun hmem => hm ((mem_matching_refs_iff repo branch n).1 hmem)),
      if_neg hm]

/-! ## Claim C7: upstream-status computation -/

/-- C7 (counterexample): the key set of the upstream map is NOT always exactly the
requested remote names — a remote-tracking ref of a non-requested remote adds
its own key.  Requesting only `"origin"` in a repository that has the ref
`upstream/main` yields keys `["origin", "upstream"]`. -/
theorem has_upstreams_keys_counterexample :
    dictKeys
        (has_upstreams ⟨[⟨true, "upstream", "upstream/main"⟩]⟩ ["origin"] "main")
      = ["origin", "upstream"] ∧
    ("upstream" : String) ∉ (["origin"] : List String) := by
  exact ⟨rfl, by decide⟩

/-- C7 (amended): every requested remote name is a key, mapped to `true` iff
a remote-tracking ref `remoteName/branchName` exists; but the key set is the
requested names plus the names of any other remotes having such a ref (those
extra keys map to `true`). -/
theorem has_upstreams_amended (repo : RepoRefs) (remotes : List String)
    (branch n : String) :
    (n ∈ remotes →
      List.lookup n (has_upstreams repo remotes branch) =
        some (hasMatchingRef repo n branch)) ∧
    (n ∈ dictKeys (has_upstreams repo remotes branch) ↔
      n ∈ remotes ∨ hasMatchingRef repo n branch = true) ∧
    (n ∉ remotes → hasMatchingRef repo n branch = true →
      List.lookup n (has_upstreams repo remotes branch) = some true) := by
  have hl := lookup_has_upstreams repo remotes branch n
  refine ⟨?_, ?_, ?_⟩
  · intro hn
    rw [hl, if_pos hn]
    by_cases hm : hasMatchingRef repo n branch
    · simp [hm]
    · simp [hm]
  · rw [mem_dictKeys_iff_lookup_isSome, hl]
    by_cases hn : n ∈ remotes <;> by_cases hm : hasMatchingRef repo n branch <;>
      simp [hn, hm]
  · intro hn hm
    rw [hl, if_pos hm, if_neg hn]
    rfl

/-- C7 (witness for the amended claim): at the counterexample repository,
the requested remote `"origin"` is mapped to `false` because no ref
`origin/main` exists. -/
theorem has_upstreams_amended_witness :
    List.lookup "origin"
        (has_upstreams ⟨[⟨true, "upstream", "upstream/main"⟩]⟩ ["origin"] "main")
      = some false := by
  have h :=
    (has_upstreams_amended ⟨[⟨true, "upstream", "upstream/main"⟩]⟩ ["origin"]
      "main" "origin").1 (by decide)
  rw [h]
  rfl

/-! ## `GMPCompleter` lemmas (claim C8) -/

theorem candidatesStep_eq_dictInsert (key : HistField)
    (d : List (String × Nat)) (c : HistEntry) :
    candidatesStep key d c =
      dictInsert d (c.get key)
        (match List.lookup (c.get key) d with
         | none => c.timestamp
         | some t => max t c.timestamp) := by
  unfold candidatesStep
  cases List.lookup (c.get key) d <;> rfl

theorem nodup_dictKeys_candidates (key : HistField) (hist : List HistEntry) :
    (dictKeys (GMPCompleter.candidates key hist)).Nodup := by
  unfold GMPCompleter.candidates
  have hfun : candidatesStep key = fun d c =>
      dictInsert d (c.get key)
        (match List.lookup (c.get key) d with
         | none => c.timestamp
         | some t => max t c.timestamp) := by
    funext d c
    exact candidatesStep_eq_dictInsert key d c
  rw [hfun]
  exact nodup_dictKeys_foldl_dictInsert (fun c => c.get key)
    (fun d c =>
      match List.lookup (c.get key) d with
      | none => c.timestamp
      | some t => max t c.timestamp)
    hist [] (by simp [dictKeys])

theorem lookup_candidates_foldl (key : HistField) (hist : List HistEntry)
    (d : List (String × Nat)) (v : String) :
    List.lookup v (hist.foldl (candidatesStep key) d) =
      hist.foldl (candSpecStep key v) (List.lookup v d) := by
  induction hist generalizing d with
  | nil => rfl
  | cons c hist ih =>
    have hstep : List.lookup v (candidatesStep key d c) =
        candSpecStep key v (List.lookup v d) c := by
      rw [candidatesStep_eq_dictInsert, lookup_dictInsert]
      unfold candSpecStep
      by_cases h : c.get key = v
      · subst h
        rw [if_pos rfl, if_pos rfl]
        cases List.lookup (c.get key) d <;> rfl
      · rw [if_neg (fun hv => h hv.symm), if_neg h]
    rw [List.foldl_cons, List.foldl_cons, ih, hstep]

theorem candSpec_some (key : HistField) (v : String) (hist : List HistEntry)
    (t : Nat) :
    hist.foldl (candSpecStep key v) (some t) =
      some (lastUseFrom key v t hist) := by
  induction hist generalizing t with
  | nil => rfl
  | cons c hist ih =>
    rw [List.foldl_cons]
    unfold lastUseFrom
    rw [List.foldl_cons]
    by_cases h : c.get key = v
    · simp only [candSpecStep, if_pos h]
      exact ih (max t c.timestamp)
    · simp only [candSpecStep, if_neg h]
      exact ih t

theorem candSpec_none (key : HistField) (v : String) (hist : List HistEntry) :
    hist.foldl (candSpecStep key v) none =
      if hist.any (fun c => c.get key = v) then some (lastUse key hist v)
      else none := by
  induction hist with
  | nil => rfl
  | cons c hist ih =>
    rw [List.foldl_cons]
    by_cases h : c.get key = v
    · simp only [candSpecStep, if_pos h]
      rw [candSpec_some]
      have h2 : lastUse key (c :: hist) v = lastUseFrom key v c.timestamp hist := by
        unfold lastUse lastUseFrom
        rw [List.foldl_cons, if_pos h]
        congr 1
        omega
      simp [List.any_cons, h, h2]
    · simp only [candSpecStep, if_neg h]
      rw [ih]
      have h2 : lastUse key (c :: hist) v = lastUse key hist v := by
        unfold lastUse lastUseFrom
        rw [List.foldl_cons, if_neg h]
      simp [List.any_cons, h, h2]

theorem lookup_candidates (key : HistField) (hist : List HistEntry)
    (v : String) :
    List.lookup v (GMPCompleter.candidates key hist) =
      if hist.any (fun c => c.get key = v) then some (lastUse key hist v)
      else none := by
  unfold GMPCompleter.candidates
  rw [lookup_candidates_foldl]
  exact candSpec_none key v hist

theorem mem_dictKeys_candidates (key : HistField) (hist : List HistEntry)
    (v : String) :
    v ∈ dictKeys (GMPCompleter.candidates key hist) ↔
      ∃ c ∈ hist, c.get key = v := by
  have hiff : hist.any (fun c => c.get key = v) = true ↔
      ∃ c ∈ hist, c.get key = v := by
    simp [List.any_eq_true]
  rw [mem_dictKeys_iff_lookup_isSome, lookup_candidates]
  by_cases h : hist.any (fun c => c.get key = v)
  · simp only [if_pos h, Option.isSome_some]
    exact ⟨fun _ => hiff.mp h, fun _ => trivial⟩
  · simp only [if_neg h, Option.isSome_none]
    constructor
    · intro hfalse
      exact absurd hfalse (by simp)
    · intro hex
      exact absurd (hiff.mpr hex) h

theorem mem_candidates_iff (key : HistField) (hist : List HistEntry)
    (v : String) (t : Nat) :
    (v, t) ∈ GMPCompleter.candidates key hist ↔
      (∃ c ∈ hist, c.get key = v) ∧ t = lastUse key hist v := by
  have hiff : hist.any (fun c => c.get key = v) = true ↔
      ∃ c ∈ hist, c.get key = v := by
    simp [List.any_eq_true]
  rw [mem_iff_lookup_of_nodupKeys _ (nodup_dictKeys_candidates key hist),
    lookup_candidates]
  by_cases h : hist.any (fun c => c.get key = v)
  · rw [if_pos h]
    constructor
    · intro hv
      injection hv with hv
      exact ⟨hiff.mp h, hv.symm⟩
    · intro ⟨_, hv⟩
      rw [hv]
  · rw [if_neg h]
    constructor
    · intro hfalse
      exact absurd hfalse (by simp)
    · intro ⟨hex, _⟩
      exact absurd (hiff.mpr hex) h

/-! ## Claim C8: suggestion completer -/

/-- C8: the completer offers exactly the distinct historical values of the
field that start with the typed input (case-insensitive), ordered by the most
recent timestamp at which each value was used, descending, capped at 10
results: the candidate keys are the distinct historical values; the yielded
texts are the first 10 of the matched candidates sorted by timestamp
descending; each yielded value matches and is historical; when at most 10
candidates match, every matching historical value is offered. -/
theorem gmp_completer_spec (key : HistField) (hist : List HistEntry)
    (text : String) :
    ((dictKeys (GMPCompleter.candidates key hist)).Nodup ∧
      ∀ v, v ∈ dictKeys (GMPCompleter.candidates key hist) ↔
        ∃ c ∈ hist, c.get key = v) ∧
    get_completions key hist text =
      ((matchedSorted key hist text).take 10).map Prod.fst ∧
    (get_completions key hist text).length =
      min 10 ((GMPCompleter.candidates key hist).filter
        (fun kv => matchesInput kv.1 text)).length ∧
    List.Pairwise (fun a b : String × Nat => b.2 ≤ a.2)
      ((matchedSorted key hist text).take 10) ∧
    (∀ kv, kv ∈ (matchedSorted key hist text).take 10 →
      kv.2 = lastUse key hist kv.1 ∧ matchesInput kv.1 text = true) ∧
    (∀ v, v ∈ get_completions key hist text →
      matchesInput v text = true ∧ ∃ c ∈ hist, c.get key = v) ∧
    (((GMPCompleter.candidates key hist).filter
        (fun kv => matchesInput kv.1 text)).length ≤ 10 →
      ∀ v, matchesInput v text = true → (∃ c ∈ hist, c.get key = v) →
        v ∈ get_completions key hist text) := by
  have hperm : (matchedSorted key hist text).Perm
      ((GMPCompleter.candidates key hist).filter
        (fun kv => matchesInput kv.1 text)) :=
    List.mergeSort_perm _ _
  have hmem_sorted : ∀ kv, kv ∈ matchedSorted key hist text ↔
      ((∃ c ∈ hist, c.get key = kv.1) ∧ kv.2 = lastUse key hist kv.1) ∧
        matchesInput kv.1 text = true := by
    intro kv
    rw [hperm.mem_iff, List.mem_filter]
    constructor
    · intro ⟨hc, hm⟩
      exact ⟨(mem_candidates_iff key hist kv.1 kv.2).1 hc, hm⟩
    · intro ⟨hc, hm⟩
      exact ⟨(mem_candidates_iff key hist kv.1 kv.2).2 hc, hm⟩
  refine ⟨⟨nodup_dictKeys_candidates key hist, mem_dictKeys_candidates key hist⟩,
    rfl, ?_, ?_, ?_, ?_, ?_⟩
  · show (((matchedSorted key hist text).take 10).map Prod.fst).length = _
    rw [List.length_map, List.length_take, hperm.length_eq]
  · have hsorted : List.Pairwise
        (fun a b : String × Nat => decide (b.2 ≤ a.2) = true)
        (matchedSorted key hist text) :=
      List.sorted_mergeSort
        (fun a b c hab hbc => by
          simp only [decide_eq_true_eq] at hab hbc ⊢
          omega)
        (fun a b => by
          simp only [Bool.or_eq_true, decide_eq_true_eq]
          omega)
        _
    exact ((hsorted.sublist (List.take_sublist 10 _)).imp
      (fun h => by simpa using h))
  · intro kv hkv
    have := (hmem_sorted kv).1 (List.mem_of_mem_take hkv)
    exact ⟨this.1.2, this.2⟩
  · intro v hv
    obtain ⟨kv, hkv, hfst⟩ := List.mem_map.1 hv
    have := (hmem_sorted kv).1 (List.mem_of_mem_take hkv)
    rw [← hfst]
    exact ⟨this.2, this.1.1⟩
  · intro hlen v hm hex
    have hkv : (v, lastUse key hist v) ∈ matchedSorted key hist text :=
      (hmem_sorted (v, lastUse key hist v)).2 ⟨⟨hex, rfl⟩, hm⟩
    have htake : (matchedSorted key hist text).take 10 =
        matchedSorted key hist text :=
      List.take_of_length_le (by rw [hperm.length_eq]; exact hlen)
    show v ∈ ((matchedSorted key hist text).take 10).map Prod.fst
    rw [htake]
    exact List.mem_map.2 ⟨(v, lastUse key hist v), hkv, rfl⟩

/-- C8 (witness): in a concrete two-entry history, the bound on matching
candidates is met and the matching value `"Fix bug"` is offered for the
typed text `"f"` on the title field. -/
theorem gmp_completer_spec_witness :
    "Fix bug" ∈ get_completions .title
      [⟨"✨", "", "Add feature", "", 10⟩, ⟨"🐛", "", "Fix bug", "", 20⟩] "f" := by
  exact (gmp_completer_spec .title
      [⟨"✨", "", "Add feature", "", 10⟩, ⟨"🐛", "", "Fix bug", "", 20⟩]
      "f").2.2.2.2.2.2 (by decide) "Fix bug" (by decide)
    ⟨⟨"🐛", "", "Fix bug", "", 20⟩, by decide, rfl⟩

/-! ## String concatenation lemmas -/

theorem containsSubstring_append_left (s t x : String)
    (h : containsSubstring t x) : containsSubstring (s ++ t) x := by
  obtain ⟨p, q, rfl⟩ := h
  exact ⟨s ++ p, q, by simp [String.append_assoc]⟩

theorem containsSubstring_append_right (s t x : String)
    (h : containsSubstring s x) : containsSubstring (s ++ t) x := by
  obtain ⟨p, q, rfl⟩ := h
  exact ⟨p, q ++ t, by simp [String.append_assoc]⟩

theorem containsSubstring_of_part {s mid x : String}
    (h1 : containsSubstring s mid) (h2 : containsSubstring mid x) :
    containsSubstring s x := by
  obtain ⟨p1, q1, rfl⟩ := h1
  obtain ⟨p2, q2, rfl⟩ := h2
  exact ⟨p1 ++ p2, q2 ++ q1, by simp [String.append_assoc]⟩

theorem col_contains (txt color : String) (bold : Bool) {x : String}
    (h : containsSubstring txt x) : containsSubstring (col txt color bold) x := by
  obtain ⟨p, q, rfl⟩ := h
  simp only [col]
  by_cases hb : bold
  · rw [if_pos hb]
    exact ⟨"[" ++ (List.lookup color COLORS).getD "" ++ " bold]" ++ p,
      q ++ "[/]", by simp [String.append_assoc]⟩
  · rw [if_neg hb]
    exact ⟨"[" ++ (List.lookup color COLORS).getD "" ++ "]" ++ p,
      q ++ "[/]", by simp [String.append_assoc]⟩

theorem joinStrs_append (l1 l2 : List String) :
    joinStrs (l1 ++ l2) = joinStrs l1 ++ joinStrs l2 := by
  induction l1 with
  | nil =>
    rw [List.nil_append]
    exact (String.empty_append _).symm
  | cons s l1 ih =>
    rw [List.cons_append]
    show s ++ joinStrs (l1 ++ l2) = (s ++ joinStrs l1) ++ joinStrs l2
    rw [ih, String.append_assoc]

theorem foldl_append_eq_joinStrs (block : String → String) (l : List String)
    (s : String) :
    l.foldl (fun acc n => acc ++ block n) s = s ++ joinStrs (l.map block) := by
  induction l generalizing s with
  | nil =>
    rw [List.foldl_nil, List.map_nil]
    exact (String.append_empty s).symm
  | cons n l ih =>
    rw [List.foldl_cons, ih, List.map_cons]
    show (s ++ block n) ++ joinStrs (l.map block) = _
    rw [String.append_assoc]
    rfl

theorem mem_joinStrs_contains {l : List String} {x : String} (hx : x ∈ l) :
    containsSubstring (joinStrs l) x := by
  obtain ⟨s, t, rfl⟩ := List.append_of_mem hx
  refine ⟨joinStrs s, joinStrs t, ?_⟩
  rw [joinStrs_append]
  show joinStrs s ++ (x ++ joinStrs t) = _
  rw [String.append_assoc]

theorem ne_empty_of_data_ne {s : String} (h : s.data ≠ []) : s ≠ "" := by
  intro he
  exact h (by rw [he])

theorem append_ne_empty_left {s : String} (t : String) (h : s.data ≠ []) :
    s ++ t ≠ "" := by
  apply ne_empty_of_data_ne
  rw [String.data_append]
  intro hc
  exact h (List.append_eq_nil.mp hc).1

/-! ## Divergence formatter lemmas (claim C4) -/

theorem lookup_commits_behind (repo : SyncRepo) (n : String) :
    List.lookup n (commits_behind repo) =
      if n ∈ repo.remotes then
        some (if repo.branchExists n then BehindVal.count (repo.behindOf n)
          else BehindVal.noBranch)
      else none := by
  unfold commits_behind
  exact lookup_dictOfList_map _ _ _

theorem mem_commits_behind (repo : SyncRepo) (a : String) (b : BehindVal) :
    (a, b) ∈ commits_behind repo ↔
      a ∈ repo.remotes ∧
        b = (if repo.branchExists a then BehindVal.count (repo.behindOf a)
          else BehindVal.noBranch) := by
  rw [mem_iff_lookup_of_nodupKeys (commits_behind repo)
      (by unfold commits_behind; exact nodup_dictKeys_dictOfList _) a b,
    lookup_commits_behind]
  by_cases hn : a ∈ repo.remotes
  · rw [if_pos hn]
    constructor
    · intro hv
      injection hv with hv
      exact ⟨hn, hv.symm⟩
    · intro ⟨_, hv⟩
      rw [hv]
  · rw [if_neg hn]
    constructor
    · intro hf
      exact absurd hf (by simp)
    · intro ⟨ha, _⟩
      exact absurd ha hn

theorem lookup_commits_ahead (repo : SyncRepo) (n : String) :
    List.lookup n (commits_ahead repo) =
      if n ∈ repo.remotes.filter repo.branchExists then some (repo.aheadOf n)
      else none := by
  unfold commits_ahead
  exact lookup_dictOfList_map _ _ _

theorem mem_commits_ahead (repo : SyncRepo) (a : String) (b : Nat) :
    (a, b) ∈ commits_ahead repo ↔
      (a ∈ repo.remotes ∧ repo.branchExists a = true) ∧ b = repo.aheadOf a := by
  rw [mem_iff_lookup_of_nodupKeys (commits_ahead repo)
      (by unfold commits_ahead; exact nodup_dictKeys_dictOfList _) a b,
    lookup_commits_ahead]
  by_cases hn : a ∈ repo.remotes.filter repo.branchExists
  · have hn' := List.mem_filter.mp hn
    rw [if_pos hn]
    constructor
    · intro hv
      injection hv with hv
      exact ⟨⟨hn'.1, hn'.2⟩, hv.symm⟩
    · intro ⟨_, hv⟩
      rw [hv]
  · rw [if_neg hn]
    constructor
    · intro hf
      exact absurd hf (by simp)
    · intro ⟨hmem, _⟩
      exact absurd (List.mem_filter.mpr ⟨hmem.1, hmem.2⟩) hn

theorem agg_eq_zero_iff (repo : SyncRepo) :
    remotesDiffAggregate (commits_behind repo) (commits_ahead repo) = 0 ↔
      ∀ n ∈ repo.remotes, repo.branchExists n = true →
        repo.behindOf n = 0 ∧ repo.aheadOf n = 0 := by
  unfold remotesDiffAggregate
  rw [Nat.add_eq_zero, List.sum_eq_zero_iff, List.sum_eq_zero_iff]
  constructor
  · intro ⟨h1, h2⟩ n hn hex
    constructor
    · apply h1
      rw [List.mem_filterMap]
      refine ⟨(n, BehindVal.count (repo.behindOf n)), ?_, rfl⟩
      rw [mem_commits_behind]
      exact ⟨hn, by rw [if_pos hex]⟩
    · apply h2
      rw [List.mem_map]
      refine ⟨(n, repo.aheadOf n), ?_, rfl⟩
      rw [mem_commits_ahead]
      exact ⟨⟨hn, hex⟩, rfl⟩
  · intro h
    constructor
    · intro x hx
      rw [List.mem_filterMap] at hx
      obtain ⟨⟨a, b⟩, hab, hg⟩ := hx
      rw [mem_commits_behind] at hab
      obtain ⟨ha, hb⟩ := hab
      by_cases hex : repo.branchExists a
      · rw [if_pos hex] at hb
        subst hb
        injection hg with hg
        rw [← hg]
        exact (h a ha hex).1
      · rw [if_neg hex] at hb
        subst hb
        exact absurd hg (by simp)
    · intro x hx
      rw [List.mem_map] at hx
      obtain ⟨⟨a, b⟩, hab, hsnd⟩ := hx
      rw [mem_commits_ahead] at hab
      obtain ⟨⟨ha, hex⟩, hb⟩ := hab
      subst hb
      rw [← hsnd]
      exact (h a ha hex).2

theorem no_branch_nil_iff (repo : SyncRepo) :
    ((commits_behind repo).filter (fun kv => kv.2 = BehindVal.noBranch)).map
        Prod.fst = [] ↔
      ∀ n ∈ repo.remotes, repo.branchExists n = true := by
  rw [List.map_eq_nil_iff, List.filter_eq_nil_iff]
  constructor
  · intro h n hn
    by_contra hex
    have hm : (n, BehindVal.noBranch) ∈ commits_behind repo := by
      rw [mem_commits_behind]
      exact ⟨hn, by rw [if_neg hex]⟩
    exact (h _ hm) (by simp)
  · intro h kv hkv
    obtain ⟨a, b⟩ := kv
    rw [mem_commits_behind] at hkv
    obtain ⟨ha, hb⟩ := hkv
    rw [if_pos (h a ha)] at hb
    subst hb
    simp

theorem remotes_diff_cond_iff (repo : SyncRepo) :
    (remotesDiffAggregate (commits_behind repo) (commits_ahead repo) = 0 ∧
      ((commits_behind repo).filter (fun kv => kv.2 = BehindVal.noBranch)).map
        Prod.fst = []) ↔ syncedRepo repo := by
  rw [agg_eq_zero_iff, no_branch_nil_iff]
  unfold syncedRepo
  constructor
  · intro ⟨h1, h2⟩ n hn
    exact ⟨h2 n hn, (h1 n hn (h2 n hn)).1, (h1 n hn (h2 n hn)).2⟩
  · intro h
    exact ⟨fun n hn _ => ⟨(h n hn).2.1, (h n hn).2.2⟩, fun n hn => (h n hn).1⟩

theorem format_remotes_diff_eq (repo : SyncRepo) :
    format_remotes_diff repo =
      if remotesDiffAggregate (commits_behind repo) (commits_ahead repo) = 0 ∧
          ((commits_behind repo).filter
            (fun kv => kv.2 = BehindVal.noBranch)).map Prod.fst = [] then ""
      else
        ("[u]" ++ col "Remotes diff:" "g" false ++ "[/u]\n") ++
          joinStrs (repo.remotes.map
            (fun n => remoteBlock repo (commits_behind repo)
              (commits_ahead repo) n)) := by
  by_cases hcond :
      remotesDiffAggregate (commits_behind repo) (commits_ahead repo) = 0 ∧
        ((commits_behind repo).filter
          (fun kv => kv.2 = BehindVal.noBranch)).map Prod.fst = []
  · simp only [format_remotes_diff]
    rw [if_pos hcond, if_pos hcond]
  · simp only [format_remotes_diff]
    rw [if_neg hcond, if_neg hcond, foldl_append_eq_joinStrs]

theorem remoteBlock_contains (repo : SyncRepo) (n : String)
    (hn : n ∈ repo.remotes) (hd : divergentRemote repo n) :
    containsSubstring
      (remoteBlock repo (commits_behind repo) (commits_ahead repo) n) n := by
  unfold remoteBlock
  rw [lookup_commits_behind, if_pos hn]
  by_cases hex : repo.branchExists n
  · rw [if_pos hex]
    show containsSubstring
      ((if repo.behindOf n ≠ 0 then
          col ("  ↵ local is behind " ++ n ++ " by " ++ toString (repo.behindOf n)
            ++ " commit(s)\n") "o" false
        else "") ++
        (match List.lookup n (commits_ahead repo) with
         | some ac =>
            if ac ≠ 0 then
              col ("  ↳ local is ahead of " ++ n ++ " by " ++ toString ac ++
                " commit(s)\n") "p" false
            else ""
         | none => "")) n
    by_cases hb : repo.behindOf n ≠ 0
    · rw [if_pos hb]
      apply containsSubstring_append_right
      apply col_contains
      exact ⟨"  ↵ local is behind ",
        " by " ++ toString (repo.behindOf n) ++ " commit(s)\n",
        by simp [String.append_assoc]⟩
    · rw [if_neg hb]
      apply containsSubstring_append_left
      have hmemf : n ∈ repo.remotes.filter repo.branchExists :=
        List.mem_filter.mpr ⟨hn, hex⟩
      rw [lookup_commits_ahead, if_pos hmemf]
      have ha : repo.aheadOf n ≠ 0 := by
        rcases hd with h | h | h
        · rw [hex] at h
          exact absurd h (by simp)
        · exact absurd h hb
        · exact h
      show containsSubstring
        (if repo.aheadOf n ≠ 0 then
          col ("  ↳ local is ahead of " ++ n ++ " by " ++
            toString (repo.aheadOf n) ++ " commit(s)\n") "p" false
         else "") n
      rw [if_pos ha]
      apply col_contains
      exact ⟨"  ↳ local is ahead of ",
        " by " ++ toString (repo.aheadOf n) ++ " commit(s)\n",
        by simp [String.append_assoc]⟩
  · rw [if_neg hex]
    show containsSubstring
      (col ("remote " ++ n ++ " does not have a branch " ++ repo.branch ++ "\n")
        "y" false) n
    apply col_contains
    exact ⟨"remote ", " does not have a branch " ++ repo.branch ++ "\n",
      by simp [String.append_assoc]⟩

/-! ## Claim C4: remote divergence formatter -/

/-- C4: the divergence banner is the empty string iff every remote has zero
ahead and behind counts and no remote is missing the branch; otherwise the
banner is non-empty and mentions every remote with nonzero ahead, nonzero
behind or an absent branch; and the counts stored at absent-branch remotes
never influence the output (they are excluded from the aggregate sums). -/
theorem format_remotes_diff_spec (repo : SyncRepo) :
    (format_remotes_diff repo = "" ↔ syncedRepo repo) ∧
    (∀ n ∈ repo.remotes, divergentRemote repo n →
      containsSubstring (format_remotes_diff repo) n ∧
        format_remotes_diff repo ≠ "") ∧
    (∀ repo' : SyncRepo, repo'.remotes = repo.remotes →
      repo'.branch = repo.branch →
      (∀ n ∈ repo.remotes, repo'.branchExists n = repo.branchExists n) →
      (∀ n ∈ repo.remotes, repo.branchExists n = true →
        repo'.behindOf n = repo.behindOf n ∧ repo'.aheadOf n = repo.aheadOf n) →
      format_remotes_diff repo' = format_remotes_diff repo) := by
  have hne : ∀ n ∈ repo.remotes, divergentRemote repo n →
      containsSubstring (format_remotes_diff repo) n ∧
        format_remotes_diff repo ≠ "" := by
    intro n hn hd
    have hnsync : ¬syncedRepo repo := by
      intro hs
      obtain ⟨he, hb, ha⟩ := hs n hn
      rcases hd with h | h | h
      · rw [he] at h
        exact absurd h (by simp)
      · exact h hb
      · exact h ha
    have hcond := (not_iff_not.mpr (remotes_diff_cond_iff repo)).mpr hnsync
    rw [format_remotes_diff_eq, if_neg hcond]
    constructor
    · apply containsSubstring_append_left
      apply containsSubstring_of_part
        (mem_joinStrs_contains (List.mem_map_of_mem _ hn))
      exact remoteBlock_contains repo n hn hd
    · exact append_ne_empty_left _ (by simp [String.data_append])
  refine ⟨?_, hne, ?_⟩
  · rw [format_remotes_diff_eq]
    by_cases hcond :
        remotesDiffAggregate (commits_behind repo) (commits_ahead repo) = 0 ∧
          ((commits_behind repo).filter
            (fun kv => kv.2 = BehindVal.noBranch)).map Prod.fst = []
    · rw [if_pos hcond]
      exact iff_of_true rfl ((remotes_diff_cond_iff repo).1 hcond)
    · rw [if_neg hcond]
      refine iff_of_false (append_ne_empty_left _ (by simp [String.data_append]))
        ?_
      exact fun hs => hcond ((remotes_diff_cond_iff repo).2 hs)
  · intro repo' hr hb he hc
    have h1 : commits_behind repo' = commits_behind repo := by
      unfold commits_behind
      rw [hr]
      congr 1
      apply List.map_congr_left
      intro n hn
      rw [he n hn]
      by_cases hex : repo.branchExists n
      · rw [if_pos hex, if_pos hex, (hc n hn hex).1]
      · rw [if_neg hex, if_neg hex]
    have h2 : commits_ahead repo' = commits_ahead repo := by
      unfold commits_ahead
      rw [hr]
      have hf : repo.remotes.filter repo'.branchExists =
          repo.remotes.filter repo.branchExists :=
        List.filter_congr (fun n hn => he n hn)
      rw [hf]
      congr 1
      apply List.map_congr_left
      intro n hn
      have hn' := List.mem_filter.mp hn
      rw [(hc n hn'.1 hn'.2).2]
    have hblock : ∀ behind ahead n,
        remoteBlock repo' behind ahead n = remoteBlock repo behind ahead n := by
      intro behind ahead n
      unfold remoteBlock
      rw [hb]
    simp only [format_remotes_diff, h1, h2, hr]
    have hfun :
        (fun (s : String) n =>
          s ++ remoteBlock repo' (commits_behind repo) (commits_ahead repo) n) =
        fun (s : String) n =>
          s ++ remoteBlock repo (commits_behind repo) (commits_ahead repo) n := by
      funext s n
      rw [hblock]
    rw [hfun]

/-- C4 (witness): a repository one commit behind its single remote yields a
non-empty banner mentioning that remote. -/
theorem format_remotes_diff_spec_witness :
    containsSubstring
        (format_remotes_diff
          ⟨["origin"], "main", fun _ => true, fun _ => 2, fun _ => 0⟩)
        "origin" ∧
      format_remotes_diff
          ⟨["origin"], "main", fun _ => true, fun _ => 2, fun _ => 0⟩ ≠ "" :=
  (format_remotes_diff_spec
      ⟨["origin"], "main", fun _ => true, fun _ => 2, fun _ => 0⟩).2.1
    "origin" (by decide) (Or.inr (Or.inl (by decide)))

/-! ## Push orchestration lemmas (claims C5, C10) -/

theorem foldl_guard_append {α β : Type} (p : α → Prop) [DecidablePred p]
    (f : α → List β) (l : List α) (acc : List β) :
    l.foldl (fun acc r => if p r then acc ++ f r else acc) acc =
      acc ++ (l.filter fun r => decide (p r)).flatMap f := by
  induction l generalizing acc with
  | nil => simp
  | cons r l ih =>
    rw [List.foldl_cons]
    by_cases hp : p r
    · rw [if_pos hp, ih, List.filter_cons, if_pos (by simpa using hp),
        List.flatMap_cons, ← List.append_assoc]
    · rw [if_neg hp, ih, List.filter_cons, if_neg (by simpa using hp)]

theorem push_cli_log_eq (env : PushEnv) :
    push_cli_log env =
      (env.remotes.filter fun r => decide (r ∈ env.selected)).flatMap
        (pushRemoteLog env) := by
  unfold push_cli_log
  rw [foldl_guard_append (fun r => r ∈ env.selected) (pushRemoteLog env),
    List.nil_append]

theorem pushRemoteLog_gitError (env : PushEnv) (r e : String)
    (hatt : pushAttempted env r = true)
    (hres : env.pushResult r = PushOutcome.gitError e) :
    pushRemoteLog env r =
      ["[bold red]Error:[/bold red] could not push to " ++ r ++ ":",
       "[red]" ++ e ++ "[/red]"] := by
  unfold pushRemoteLog
  rw [if_pos hatt, hres]
  rfl

theorem pushRemoteLog_otherExc (env : PushEnv) (r m : String)
    (hres : env.pushResult r = PushOutcome.otherExc m)
    (hatt : pushAttempted env r = true) :
    pushRemoteLog env r = [doneMessage r (!env.hasUpstream r)] := by
  unfold pushRemoteLog
  rw [if_pos hatt, hres]
  rfl

/-! ## Claim C5: per-remote failure isolation during batch push -/

/-- C5: the output of the push loop is the independent concatenation of the
per-remote logs of the selected remotes (no single outcome can abort the
batch or suppress the processing of another remote), and a push failure at a remote is
captured and displayed as two lines naming the remote and quoting the
underlying error text. -/
theorem push_batch_isolated (env : PushEnv) :
    push_cli_log env =
      (env.remotes.filter fun r => decide (r ∈ env.selected)).flatMap
        (pushRemoteLog env) ∧
    (∀ r, r ∈ env.remotes → r ∈ env.selected → pushAttempted env r = true →
      ∀ e, env.pushResult r = PushOutcome.gitError e →
        containsLines (push_cli_log env)
          ["[bold red]Error:[/bold red] could not push to " ++ r ++ ":",
           "[red]" ++ e ++ "[/red]"]) := by
  refine ⟨push_cli_log_eq env, ?_⟩
  intro r hr hsel hatt e hres
  have hrf : r ∈ env.remotes.filter fun r => decide (r ∈ env.selected) :=
    List.mem_filter.mpr ⟨hr, by simpa using hsel⟩
  obtain ⟨l1, l2, hsplit⟩ := List.append_of_mem hrf
  refine ⟨l1.flatMap (pushRemoteLog env), l2.flatMap (pushRemoteLog env), ?_⟩
  rw [push_cli_log_eq env, hsplit, List.flatMap_append, List.flatMap_cons,
    pushRemoteLog_gitError env r e hatt hres]
  simp [List.append_assoc]

/-- C5 (witness): with two selected remotes where pushing to `origin` raises
a git error, the batch log contains the two error lines for `origin` (and,
by the first conjunct, `fork` is still processed). -/
theorem push_batch_isolated_witness :
    containsLines
      (push_cli_log
        ⟨["origin", "fork"], ["origin", "fork"], fun _ => true, fun _ => false,
          fun r => if r = "origin" then PushOutcome.gitError "boom"
            else PushOutcome.ok⟩)
      ["[bold red]Error:[/bold red] could not push to " ++ "origin" ++ ":",
       "[red]" ++ "boom" ++ "[/red]"] :=
  (push_batch_isolated _).2 "origin" (by decide) (by decide) (by decide)
    "boom" rfl

/-! ## Claim C6: no-upstream detection on push failure -/

/-- C6 (code bug exhibit): `CatchRemoteException.__exit__` performs no string
match on the error text and records no determination: the `set_upsteam`
attribute initialized to `False` stays `False` for every exception — even a
`GitCommandError` whose stderr is exactly the no-upstream message, for which
the error flag is set and the error is displayed but `set_upsteam` remains
`False`. -/
theorem catch_remote_exception_never_sets_upstream :
    (∀ r exc,
      ((CatchRemoteException.exit (CatchRemoteException.init r) exc).1).set_upsteam
        = false) ∧
    ((CatchRemoteException.exit (CatchRemoteException.init "origin")
        (some (PyExc.gitCommandError
          "fatal: The current branch feature has no upstream branch.\n"))).1.set_upsteam
      = false ∧
    (CatchRemoteException.exit (CatchRemoteException.init "origin")
        (some (PyExc.gitCommandError
          "fatal: The current branch feature has no upstream branch.\n"))).1.error
      = true) := by
  refine ⟨?_, rfl, rfl⟩
  intro r exc
  cases exc with
  | none => rfl
  | some e => cases e <;> rfl

/-! ## Claim C10: the guard suppresses every exception -/

/-- C10: the exit handler returns `True` for every exception type; it sets
the error flag and prints iff the exception is a `GitCommandError`; for any
other raised exception the flag stays false, so the caller still prints the
per-remote success confirmation. -/
theorem catch_remote_exception_swallows_all :
    (∀ r exc,
      (CatchRemoteException.exit (CatchRemoteException.init r) exc).2.2 = true) ∧
    (∀ r exc,
      ((CatchRemoteException.exit (CatchRemoteException.init r) exc).1.error = true
        ↔ ∃ e, exc = some (PyExc.gitCommandError e))) ∧
    (∀ r exc,
      ((CatchRemoteException.exit (CatchRemoteException.init r) exc).2.1 ≠ []
        ↔ ∃ e, exc = some (PyExc.gitCommandError e))) ∧
    (∀ env r m, env.pushResult r = PushOutcome.otherExc m →
      pushAttempted env r = true →
      pushRemoteLog env r = [doneMessage r (!env.hasUpstream r)]) := by
  refine ⟨?_, ?_, ?_, ?_⟩
  · intro r exc
    cases exc with
    | none => rfl
    | some e => cases e <;> rfl
  · intro r exc
    cases exc with
    | none => simp [CatchRemoteException.exit, CatchRemoteException.init]
    | some e => cases e <;>
        simp [CatchRemoteException.exit, CatchRemoteException.init]
  · intro r exc
    cases exc with
    | none => simp [CatchRemoteException.exit, CatchRemoteException.init]
    | some e => cases e <;>
        simp [CatchRemoteException.exit, CatchRemoteException.init]
  · intro env r m hres hatt
    exact pushRemoteLog_otherExc env r m hres hatt

/-- C10 (witness): for a push raising a non-git exception at a remote with an
upstream, the loop prints exactly the success confirmation for that remote. -/
theorem catch_remote_exception_swallows_all_witness :
    pushRemoteLog
        ⟨["origin"], ["origin"], fun _ => true, fun _ => true,
          fun _ => PushOutcome.otherExc "RuntimeError: boom"⟩ "origin"
      = [doneMessage "origin" false] :=
  (catch_remote_exception_swallows_all).2.2.2
    ⟨["origin"], ["origin"], fun _ => true, fun _ => true,
      fun _ => PushOutcome.otherExc "RuntimeError: boom"⟩
    "origin" "RuntimeError: boom" rfl (by decide)

/-! ## Configuration persistence lemmas (claim C9) -/

theorem mem_insertByKey (kv x : String × Bool) (l : List (String × Bool)) :
    x ∈ insertByKey kv l ↔ x = kv ∨ x ∈ l := by
  induction l with
  | nil => simp [insertByKey]
  | cons t rest ih =>
    unfold insertByKey
    by_cases h : strLe kv.1 t.1
    · rw [if_pos h]
      simp [List.mem_cons]
    · rw [if_neg h]
      simp only [List.mem_cons, ih]
      tauto

theorem mem_sortByKey (l : List (String × Bool)) (x : String × Bool) :
    x ∈ sortByKey l ↔ x ∈ l := by
  induction l with
  | nil => simp [sortByKey]
  | cons t rest ih =>
    show x ∈ insertByKey t (sortByKey rest) ↔ _
    rw [mem_insertByKey, ih, List.mem_cons]

/-! ## Claim C9: configuration saving -/

/-- C9 (counterexample): saving a configuration that contains the
unrecognized key `"totally_unknown_key"` does not fail and does not leave the
previous file untouched: the file is overwritten with a dump that includes
the unknown key. -/
theorem save_config_counterexample :
    ("totally_unknown_key" ∉ recognizedConfigKeys) ∧
    (save_config [("skip_scope", false), ("totally_unknown_key", true)]
        ⟨some "skip_scope: true\n"⟩).1.content ≠ some "skip_scope: true\n" ∧
    (save_config [("skip_scope", false), ("totally_unknown_key", true)]
        ⟨some "skip_scope: true\n"⟩).1.content =
      some "skip_scope: false\ntotally_unknown_key: true\n" :=
  ⟨by decide, by decide, rfl⟩

/-- C9 (amended): `save_config` performs no validation at all: for every
configuration map — unrecognized keys included — it overwrites the config
file with the YAML dump of the full map, and every entry of the map appears
in the written text. -/
theorem save_config_amended (config : List (String × Bool)) (fs : ConfigFile) :
    (save_config config fs).1.content = some (yamlSafeDump config) ∧
    ∀ k v, (k, v) ∈ dictOfList config →
      containsSubstring (yamlSafeDump config)
        (k ++ ": " ++ (if v then "true" else "false") ++ "\n") := by
  refine ⟨rfl, ?_⟩
  intro k v hkv
  unfold yamlSafeDump
  apply mem_joinStrs_contains
  exact List.mem_map_of_mem _ ((mem_sortByKey _ _).2 hkv)

/-- C9 (witness for the amended claim): the line of the unknown key is
written. -/
theorem save_config_amended_witness :
    containsSubstring
      (yamlSafeDump [("skip_scope", false), ("totally_unknown_key", true)])
      ("totally_unknown_key" ++ ": " ++ (if True then "true" else "false") ++
        "\n") :=
  (save_config_amended [("skip_scope", false), ("totally_unknown_key", true)]
      ⟨none⟩).2 "totally_unknown_key" true (by decide)

/-! ## Claim C1: commit message formatting -/

/-- C1: for every commit-details record, the formatted commit message is
`"{emoji} ({scope}): {title}\n\n{message}"` stripped of leading/trailing
whitespace when `scope` is non-empty, and `"{emoji} {title}\n\n{message}"`
stripped when `scope` is the empty string (no `"({scope}): "` segment). -/
theorem message_from_commit_dict_spec (e sc t m : String) :
    message_from_commit_dict ⟨e, sc, t, m⟩ =
      if sc ≠ "" then pyStrip (e ++ " (" ++ sc ++ "): " ++ t ++ "\n\n" ++ m)
      else pyStrip (e ++ " " ++ t ++ "\n\n" ++ m) := by
  unfold message_from_commit_dict
  by_cases h : sc = "" <;> simp [h, String.append_assoc]

/-! ## Claim C2: finalized title non-emptiness -/

/-- C2 (code bug exhibit): the title validator of the wizard checks the length of
the raw submitted text before stripping, so the whitespace-only submission
`" "` is accepted and the finalized record carries an empty title. -/
theorem commit_prompt_accepts_blank_title :
    titleAccepted " " = true ∧
    (commit_prompt ⟨false, false, false⟩ ⟨"🎨", "", " ", ""⟩).map CommitDict.title
      = some "" := by
  constructor
  · rfl
  · rfl

/-! ## Claim C3: title capitalization -/

/-- C3 (code bug exhibit): with `capitalize_title` set, `commit_prompt` stores
`title.capitalize()`, which lowercases every character after the first: the
entered title `"HELLO"` is stored as `"Hello"`, even though the
`safe_capitalize` helper of the repository itself (which the spec describes) keeps `"HELLO"`
unchanged. -/
theorem commit_prompt_capitalize_lowercases_rest :
    (commit_prompt ⟨false, false, true⟩ ⟨"🎨", "", "HELLO", ""⟩).map CommitDict.title
      = some "Hello" ∧
    safe_capitalize "HELLO" = "HELLO" ∧
    safe_capitalize "" = "" ∧ safe_capitalize "a" = "A" ∧
    safe_capitalize "hello" = "Hello" := by
  refine ⟨rfl, rfl, rfl, rfl, rfl⟩

end Gitmopy
